import Mathlib

/-!
Verification of the histogram-manipulation core of `nb_hdr_plotter`.

The definitions below are a shallow embedding of `hdr_manipulation.py` and of
the curve-producing branches of `main` in `hdr_tool.py`.  An interval
histogram (a "slice") is modelled by the multiset of raw values it recorded,
together with the decoded metadata fields; the hdrh bucket structure is an
external collaborator and its linear iterator is modelled from the spec.
Python floats are modelled by exact rationals, Python `min`/`max`/error
behaviour by `Except` values.
-/

set_option autoImplicit false

namespace NbHdrPlotter

/-- Error kinds surfaced by the core: Python `ValueError` from `min`/`max`
of an empty sequence (`emptySeries`), the guarded skip of the stability
branch (`noStabilityData`), and Python `ValueError` from unpacking
`zip(*...)` of an empty generator (`zipUnpack`). -/
inductive PipeError where
  | emptySeries
  | noStabilityData
  | zipUnpack
  deriving DecidableEq, Repr

/-- `VALUE_FACTOR = 1.0e6`: values stored in histograms are in ns, display is ms. -/
def VALUE_FACTOR : ℚ := 1000000

/-- One decoded interval histogram. `values` is the multiset of raw recorded
values; `min_value`/`max_value` are the decoded extrema fields (meaningless
when no value was recorded). -/
structure Slice where
  start_time_stamp_msec : ℤ
  end_time_stamp_msec : ℤ
  min_value : ℕ
  max_value : ℕ
  values : List ℕ
  deriving DecidableEq, Repr

/-- `total_count` of a slice is the number of recorded values. -/
def Slice.total_count (sl : Slice) : ℕ := sl.values.length

/-- `sliceStartTimestamp`. -/
def sliceStartTimestamp (sl : Slice) : ℤ := sl.start_time_stamp_msec

/-- `sliceEndTimestamp`. -/
def sliceEndTimestamp (sl : Slice) : ℤ := sl.end_time_stamp_msec

/-- `sliceMaxValue`. -/
def sliceMaxValue (sl : Slice) (rawFlag : Bool) : ℚ :=
  if rawFlag then (sl.max_value : ℚ) else (sl.max_value : ℚ) / VALUE_FACTOR

/-- `sliceMinValue`. -/
def sliceMinValue (sl : Slice) (rawFlag : Bool) : ℚ :=
  if rawFlag then (sl.min_value : ℚ) else (sl.min_value : ℚ) / VALUE_FACTOR

/-- `sliceValueCount`. -/
def sliceValueCount (sl : Slice) : ℕ := sl.total_count

/-- Python `min` over a list: `ValueError` on the empty list, otherwise a
left fold of the binary minimum over the remaining elements. -/
def pyMin {α : Type} [Min α] : List α → Except PipeError α
  | [] => .error .emptySeries
  | x :: xs => .ok (xs.foldl min x)

/-- Python `max` over a list: `ValueError` on the empty list, otherwise a
left fold of the binary maximum over the remaining elements. -/
def pyMax {α : Type} [Max α] : List α → Except PipeError α
  | [] => .error .emptySeries
  | x :: xs => .ok (xs.foldl max x)

/-- `slicesStartTimestamp`: `min` of the start timestamps. -/
def slicesStartTimestamp (slices : List Slice) : Except PipeError ℤ :=
  pyMin (slices.map sliceStartTimestamp)

/-- `slicesEndTimestamp`: `max` of the end timestamps. -/
def slicesEndTimestamp (slices : List Slice) : Except PipeError ℤ :=
  pyMax (slices.map sliceEndTimestamp)

/-- `slicesMinValue`. -/
def slicesMinValue (slices : List Slice) (rawFlag : Bool) : Except PipeError ℚ :=
  pyMin (slices.map (fun sl => sliceMinValue sl rawFlag))

/-- `slicesMaxValue`. -/
def slicesMaxValue (slices : List Slice) (rawFlag : Bool) : Except PipeError ℚ :=
  pyMax (slices.map (fun sl => sliceMaxValue sl rawFlag))

/-- `slicesCountNonempty`. -/
def slicesCountNonempty (slices : List Slice) : ℕ :=
  (slices.map (fun sl => if sliceValueCount sl > 0 then 1 else 0)).sum

/-- `slicesValueCount`. -/
def slicesValueCount (slices : List Slice) : ℕ :=
  (slices.map sliceValueCount).sum

/-- The aggregated histogram built by `aggregateSlices`: the constructor
arguments of `HdrHistogram(1, int(1 + metricMax), sigFigures)` together with
the merged multiset of recorded values (`fullHistogram.add(b)` adds every
bucket count of `b`, hence concatenates the recorded multisets). -/
structure HdrHistogram where
  lowest_trackable_value : ℕ
  highest_trackable_value : ℤ
  significant_figures : ℕ
  values : List ℕ
  deriving DecidableEq, Repr

/-- `total_count` of a histogram is the number of merged values. -/
def HdrHistogram.total_count (h : HdrHistogram) : ℕ := h.values.length

/-- `aggregateSlices`: takes `max_value` over all slices in raw units
(Python `max`, so a `ValueError` only when the list of slices is empty),
allocates a histogram over `[1, int(1 + metricMax)]` and merges every
slice into it. -/
def aggregateSlices (slices : List Slice) (sigFigures : ℕ) :
    Except PipeError HdrHistogram :=
  match slicesMaxValue slices true with
  | .error e => .error e
  | .ok metricMax => .ok
      { lowest_trackable_value := 1
        highest_trackable_value := ⌊(1 : ℚ) + metricMax⌋
        significant_figures := sigFigures
        values := slices.flatMap Slice.values }

/-- Scale factor between raw and display units inside
`normalizedDistribution`: `1.0 if rawFlag else VALUE_FACTOR`. -/
def vfOf (rawFlag : Bool) : ℚ := if rawFlag then 1 else VALUE_FACTOR

/-- Largest recorded value of a histogram (0 when empty). -/
def histMaxValue (values : List ℕ) : ℕ := values.foldl max 0

/-- Modelled from the spec: number of steps taken by the hdrh linear
iterator (an external collaborator): equal-width buckets starting at 0,
ending with the bucket that contains the largest recorded value. -/
def numBuckets (values : List ℕ) (w : ℚ) : ℕ :=
  (⌊(histMaxValue values : ℚ) / w⌋).toNat + 1

/-- Modelled from the spec: count added in linear-iteration step `i`, i.e.
the number of recorded values in the half-open bucket `[i*w, (i+1)*w)`. -/
def countInBucket (values : List ℕ) (w : ℚ) (i : ℕ) : ℕ :=
  values.countP (fun (v : ℕ) =>
    decide ((i : ℚ) * w ≤ (v : ℚ) ∧ (v : ℚ) < ((i : ℚ) + 1) * w))

/-- Modelled from the spec: cumulative count reached through linear-iteration
step `i`, i.e. the number of recorded values below the bucket's upper edge. -/
def cumCountThrough (values : List ℕ) (w : ℚ) (i : ℕ) : ℕ :=
  values.countP (fun (v : ℕ) => decide ((v : ℚ) < ((i : ℚ) + 1) * w))

/-- One record yielded by the linear iterator: the bucket's value range, the
count added in this step, and the cumulative percentile reached. -/
structure LinearIterStep where
  value_iterated_from : ℚ
  value_iterated_to : ℚ
  count_added_in_this_iter_step : ℕ
  percentile : ℚ
  deriving DecidableEq, Repr

/-- Modelled from the spec: the sequence of records yielded by
`histogram.get_linear_iterator(value_units_per_bucket=w)` of the external
hdrh collaborator. -/
def linearSteps (values : List ℕ) (w : ℚ) : List LinearIterStep :=
  (List.range (numBuckets values w)).map (fun (i : ℕ) =>
    { value_iterated_from := (i : ℚ) * w
      value_iterated_to := ((i : ℚ) + 1) * w
      count_added_in_this_iter_step := countInBucket values w i
      percentile := 100 * (cumCountThrough values w i : ℚ) / (values.length : ℚ) })

/-- `normalizedDistribution`: converts the requested bucket width to raw
units, iterates the histogram linearly, keeps the steps whose cumulative
percentile does not exceed `max_percentile`, and emits midpoints (back in
display units) against counts normalized by `total_count * x_incr`.
Unpacking `zip(*...)` of an empty generator raises, modelled by
`.error .zipUnpack`; a histogram with no samples short-circuits to
`([], [])`. -/
def normalizedDistribution (values : List ℕ) (x_incr : ℚ) (max_percentile : ℚ)
    (rawFlag : Bool) : Except PipeError (List ℚ × List ℚ) :=
  if 0 < values.length then
    if ((linearSteps values (x_incr * vfOf rawFlag)).filter
        (fun s => decide (s.percentile ≤ max_percentile))).isEmpty then
      .error .zipUnpack
    else .ok
      (((linearSteps values (x_incr * vfOf rawFlag)).filter
          (fun s => decide (s.percentile ≤ max_percentile))).map (fun s =>
        (1 / 2 * (s.value_iterated_from + s.value_iterated_to)) / vfOf rawFlag),
       ((linearSteps values (x_incr * vfOf rawFlag)).filter
          (fun s => decide (s.percentile ≤ max_percentile))).map (fun s =>
        (s.count_added_in_this_iter_step : ℚ) / ((values.length : ℚ) * x_incr)))
  else .ok ([], [])

/-- The indices of the linear-iteration buckets that pass the percentile
filter of `normalizedDistribution`. -/
def qualifyingBuckets (values : List ℕ) (w : ℚ) (max_percentile : ℚ) : List ℕ :=
  (List.range (numBuckets values w)).filter (fun i =>
    decide (100 * (cumCountThrough values w i : ℚ) / (values.length : ℚ) ≤ max_percentile))

/-- The accumulator step of the `reduce` in the percentiles branch of
`main`: state `(tot, [tot0, ..., tot_i])` becomes
`(tot + h, [tot0, ..., tot_i, tot_i + h])`. -/
def percentileStep (ac : ℚ × List ℚ) (newval : ℚ) : ℚ × List ℚ :=
  (ac.1 + newval, ac.2 ++ [ac.1 + newval])

/-- The percentiles branch of `main`: prefix sums of the density y-values
(`pxs0`), scaled by `xStep * 100` (`pxs`), paired with the density x-values
as the y-output (`pys = bxs`). -/
def percentileCurve (bxs bys : List ℚ) (xStep : ℚ) : List ℚ × List ℚ :=
  ((bys.foldl percentileStep ((0 : ℚ), ([] : List ℚ))).2.map
    (fun x => x * xStep * 100), bxs)

/-- One comparison step of Python `max(xss, key=len)`: a later element
replaces the current best only when strictly longer. -/
def maxByLenStep (best c : List ℚ) : List ℚ :=
  if best.length < c.length then c else best

/-- Python `max(xss, key=len)` on a nonempty list: first element of maximal
length. -/
def pyMaxByLen : List (List ℚ) → Option (List ℚ)
  | [] => none
  | x :: xs => some (xs.foldl maxByLenStep x)

/-- The padding step of the stability branch of `main`: `fullXs` is the
longest x-sequence; every y-sequence is right-padded with
`len(fullXs) - len(ys)` zeros and every x-sequence is replaced by `fullXs`. -/
def stabilityPad (plots : List (List ℚ × List ℚ)) : List (List ℚ × List ℚ) :=
  match pyMaxByLen (plots.map Prod.fst) with
  | none => []
  | some fullXs => plots.map (fun p =>
      (fullXs, p.2 ++ List.replicate (fullXs.length - p.2.length) (0 : ℚ)))

/-- The stability branch of `main`: guarded by `len(slices) > 1` (otherwise
only a warning is printed and no curves are produced, the spec's
`NoStabilityDataError`); computes one density curve per slice and pads them
to a common x-axis. -/
def stabilityCurves (series : List Slice) (x_incr max_percentile : ℚ)
    (rawFlag : Bool) : Except PipeError (List (List ℚ × List ℚ)) :=
  if 1 < series.length then
    match series.mapM (fun sl =>
        normalizedDistribution sl.values x_incr max_percentile rawFlag) with
    | .error e => .error e
    | .ok plots => .ok (stabilityPad plots)
  else .error .noStabilityData

/-- Spec-side description of the tie-break used for `fullXs`: the first
curve of maximal length. -/
def firstLongest (l : List (List ℚ)) : Option (List ℚ) :=
  l.find? (fun x => l.all (fun y => decide (y.length ≤ x.length)))

/-- Decidable equality of `Except` values, used to evaluate the embedded
functions at concrete inputs. -/
instance exceptDecEq {ε α : Type} [DecidableEq ε] [DecidableEq α] :
    DecidableEq (Except ε α)
  | .error a, .error b =>
    if h : a = b then .isTrue (by rw [h])
    else .isFalse (by intro hc; cases hc; exact h rfl)
  | .error _, .ok _ => .isFalse (by intro hc; cases hc)
  | .ok _, .error _ => .isFalse (by intro hc; cases hc)
  | .ok a, .ok b =>
    if h : a = b then .isTrue (by rw [h])
    else .isFalse (by intro hc; cases hc; exact h rfl)

/-! ### Helper lemmas about Python `max` -/

theorem foldl_max_eq_or_mem {α : Type} [LinearOrder α] (x : α) (xs : List α) :
    xs.foldl max x = x ∨ xs.foldl max x ∈ xs := by
  induction xs generalizing x with
  | nil => exact Or.inl rfl
  | cons y ys ih =>
    simp only [List.foldl_cons]
    rcases ih (max x y) with h | h
    · rcases max_choice x y with hm | hm
      · exact Or.inl (h.trans hm)
      · exact Or.inr (by rw [h, hm]; exact List.mem_cons_self y ys)
    · exact Or.inr (List.mem_cons_of_mem y h)

theorem le_foldl_max_init {α : Type} [LinearOrder α] (x : α) (xs : List α) :
    x ≤ xs.foldl max x := by
  induction xs generalizing x with
  | nil => exact le_refl x
  | cons y ys ih => exact le_trans (le_max_left x y) (ih (max x y))

theorem le_foldl_max_of_mem {α : Type} [LinearOrder α] {y : α} (x : α) {xs : List α}
    (hy : y ∈ xs) : y ≤ xs.foldl max x := by
  induction xs generalizing x with
  | nil => cases hy
  | cons z zs ih =>
    rcases List.mem_cons.mp hy with rfl | hy
    · exact le_trans (le_max_right x y) (le_foldl_max_init (max x y) zs)
    · exact ih (max x z) hy

theorem pyMax_spec {α : Type} [LinearOrder α] {l : List α} {m : α}
    (h : pyMax l = .ok m) : m ∈ l ∧ ∀ y ∈ l, y ≤ m := by
  cases l with
  | nil => cases h
  | cons x xs =>
    have hm : m = xs.foldl max x := by
      simpa [pyMax] using h.symm
    subst hm
    constructor
    · rcases foldl_max_eq_or_mem x xs with h | h
      · rw [h]; exact List.mem_cons_self x xs
      · exact List.mem_cons_of_mem x h
    · intro y hy
      rcases List.mem_cons.mp hy with rfl | hy
      · exact le_foldl_max_init y xs
      · exact le_foldl_max_of_mem x hy

theorem pyMax_ok {α : Type} [LinearOrder α] {l : List α} (h : l ≠ []) :
    ∃ m, pyMax l = .ok m := by
  cases l with
  | nil => exact absurd rfl h
  | cons x xs => exact ⟨xs.foldl max x, rfl⟩

theorem pyMax_perm {α : Type} [LinearOrder α] {l₁ l₂ : List α} (h : l₁.Perm l₂) :
    pyMax l₁ = pyMax l₂ := by
  cases l₁ with
  | nil =>
    have : l₂ = [] := h.symm.eq_nil
    rw [this]
  | cons x xs =>
    have h₁ : (x :: xs) ≠ ([] : List α) := by simp
    have h₂ : l₂ ≠ [] := by
      intro hn
      subst hn
      exact List.cons_ne_nil x xs h.eq_nil
    obtain ⟨m₁, hm₁⟩ := pyMax_ok h₁
    obtain ⟨m₂, hm₂⟩ := pyMax_ok h₂
    obtain ⟨hmem₁, hub₁⟩ := pyMax_spec hm₁
    obtain ⟨hmem₂, hub₂⟩ := pyMax_spec hm₂
    have : m₁ = m₂ :=
      le_antisymm (hub₂ m₁ (h.mem_iff.mp hmem₁)) (hub₁ m₂ (h.mem_iff.mpr hmem₂))
    rw [hm₁, hm₂, this]

/-! ### Error-handling claims -/

/-- C7: on a series with no slices, the min/max summary queries fail with
`EmptySeriesError` while the count and sum queries return 0. -/
theorem emptySeries_query_behaviour :
    slicesStartTimestamp [] = .error .emptySeries ∧
    slicesEndTimestamp [] = .error .emptySeries ∧
    (∀ rawFlag : Bool,
      slicesMinValue [] rawFlag = .error .emptySeries ∧
      slicesMaxValue [] rawFlag = .error .emptySeries) ∧
    slicesCountNonempty [] = 0 ∧
    slicesValueCount [] = 0 :=
  ⟨rfl, rfl, fun _ => ⟨rfl, rfl⟩, rfl, rfl⟩

/-- C8: the stability analysis on a series with fewer than 2 slices produces
no curves and reports `NoStabilityDataError`. -/
theorem stabilityCurves_too_few_slices (series : List Slice)
    (x_incr max_percentile : ℚ) (rawFlag : Bool) (h : series.length < 2) :
    stabilityCurves series x_incr max_percentile rawFlag =
      .error .noStabilityData := by
  unfold stabilityCurves
  rw [if_neg (by omega)]

/-- Witness for C8: a concrete 1-slice series. -/
theorem stabilityCurves_too_few_slices_witness :
    stabilityCurves [⟨0, 1000, 1, 9, [1, 9]⟩] 2 100 true =
      .error .noStabilityData :=
  stabilityCurves_too_few_slices [⟨0, 1000, 1, 9, [1, 9]⟩] 2 100 true (by decide)

/-- C9: on a histogram with zero samples, `normalizedDistribution` returns
the empty curve and never an error, for every bucket width, percentile
cutoff and raw flag. -/
theorem normalizedDistribution_zero_samples (values : List ℕ)
    (hz : values.length = 0) (x_incr max_percentile : ℚ) (rawFlag : Bool) :
    normalizedDistribution values x_incr max_percentile rawFlag = .ok ([], []) := by
  unfold normalizedDistribution
  rw [if_neg (by omega)]

/-- Witness for C9 at a concrete input. -/
theorem normalizedDistribution_zero_samples_witness :
    normalizedDistribution [] 5 50 false = .ok ([], []) :=
  normalizedDistribution_zero_samples [] rfl 5 50 false

/-- C10: `normalizedDistribution` is not total on non-empty histograms:
there is a histogram with samples and a positive bucket width on which the
percentile filter discards every linear-iteration bucket and the
tuple-unpacking of `zip` fails. -/
theorem normalizedDistribution_not_total :
    ∃ (values : List ℕ) (x_incr max_percentile : ℚ) (rawFlag : Bool),
      0 < values.length ∧ 0 < x_incr ∧
      normalizedDistribution values x_incr max_percentile rawFlag =
        .error .zipUnpack := by
  refine ⟨[1], 10, 0, true, by decide, by norm_num, ?_⟩
  norm_num [normalizedDistribution, linearSteps, numBuckets, histMaxValue,
    countInBucket, cumCountThrough, vfOf, List.countP_cons, List.range_succ,
    List.filter]

/-- Counterexample for C6: a non-empty series in which no slice has any
sample is aggregated without `EmptySeriesError` — the maximum is taken over
all slices, not over the non-empty ones, so the empty slice's (meaningless)
`max_value` field is used and a histogram over `[1, 1]` is produced. -/
theorem aggregateSlices_all_empty_no_error :
    (([⟨0, 0, 0, 0, []⟩] : List Slice).map Slice.total_count).sum = 0 ∧
    aggregateSlices [⟨0, 0, 0, 0, []⟩] 3 = .ok ⟨1, 1, 3, []⟩ := by
  refine ⟨rfl, ?_⟩
  have h1 : slicesMaxValue [⟨0, 0, 0, 0, []⟩] true = .ok 0 := by
    norm_num [slicesMaxValue, pyMax, sliceMaxValue]
  unfold aggregateSlices
  rw [h1]
  norm_num

/-! ### Aggregation claims -/

/-- C6 (amended): `aggregateSlices` computes the maximum of `max_value` over
ALL slices of the series (the decoded field of an empty slice included),
allocates the histogram over `[1, floor(maxRaw) + 1]` at the given precision,
and fails with `EmptySeriesError` exactly when the series contains no slices
at all. -/
theorem aggregateSlices_range (slices : List Slice) (sigFigures : ℕ) :
    (slices = [] → aggregateSlices slices sigFigures = .error .emptySeries) ∧
    (slices ≠ [] → ∃ (m : ℚ) (h : HdrHistogram),
      m ∈ slices.map (fun sl => sliceMaxValue sl true) ∧
      (∀ y ∈ slices.map (fun sl => sliceMaxValue sl true), y ≤ m) ∧
      aggregateSlices slices sigFigures = .ok h ∧
      h.lowest_trackable_value = 1 ∧
      h.highest_trackable_value = ⌊m⌋ + 1 ∧
      h.significant_figures = sigFigures ∧
      h.values = slices.flatMap Slice.values) := by
  constructor
  · rintro rfl
    rfl
  · intro hne
    have hmapne : slices.map (fun sl => sliceMaxValue sl true) ≠ [] := by
      simpa using hne
    obtain ⟨m, hm⟩ := pyMax_ok hmapne
    obtain ⟨hmem, hub⟩ := pyMax_spec hm
    refine ⟨m, ⟨1, ⌊(1 : ℚ) + m⌋, sigFigures, slices.flatMap Slice.values⟩,
      hmem, hub, ?_, rfl, ?_, rfl, rfl⟩
    · unfold aggregateSlices
      unfold slicesMaxValue
      rw [hm]
    · show ⌊(1 : ℚ) + m⌋ = ⌊m⌋ + 1
      rw [add_comm]
      exact_mod_cast Int.floor_add_int m 1

/-- Witness for C6 (amended) at a concrete two-slice series. -/
theorem aggregateSlices_range_witness :
    (([⟨0, 10, 1, 5, [1, 5]⟩, ⟨10, 20, 2, 9, [2, 9, 9]⟩] : List Slice) = [] →
      aggregateSlices [⟨0, 10, 1, 5, [1, 5]⟩, ⟨10, 20, 2, 9, [2, 9, 9]⟩] 3 =
        .error .emptySeries) ∧
    (([⟨0, 10, 1, 5, [1, 5]⟩, ⟨10, 20, 2, 9, [2, 9, 9]⟩] : List Slice) ≠ [] →
      ∃ (m : ℚ) (h : HdrHistogram),
      m ∈ ([⟨0, 10, 1, 5, [1, 5]⟩, ⟨10, 20, 2, 9, [2, 9, 9]⟩] : List Slice).map
        (fun sl => sliceMaxValue sl true) ∧
      (∀ y ∈ ([⟨0, 10, 1, 5, [1, 5]⟩, ⟨10, 20, 2, 9, [2, 9, 9]⟩] : List Slice).map
        (fun sl => sliceMaxValue sl true), y ≤ m) ∧
      aggregateSlices [⟨0, 10, 1, 5, [1, 5]⟩, ⟨10, 20, 2, 9, [2, 9, 9]⟩] 3 = .ok h ∧
      h.lowest_trackable_value = 1 ∧
      h.highest_trackable_value = ⌊m⌋ + 1 ∧
      h.significant_figures = 3 ∧
      h.values = ([⟨0, 10, 1, 5, [1, 5]⟩, ⟨10, 20, 2, 9, [2, 9, 9]⟩] : List Slice).flatMap
        Slice.values) :=
  aggregateSlices_range [⟨0, 10, 1, 5, [1, 5]⟩, ⟨10, 20, 2, 9, [2, 9, 9]⟩] 3

/-- C2: on a non-empty series the aggregated histogram's `total_count` is
the sum of the slices' `total_count`. -/
theorem aggregateSlices_total_count (slices : List Slice) (sigFigures : ℕ)
    (hne : slices ≠ []) :
    ∃ h, aggregateSlices slices sigFigures = .ok h ∧
      h.total_count = (slices.map Slice.total_count).sum := by
  obtain ⟨_, _, _, _, hok, _, _, _, hvals⟩ := (aggregateSlices_range slices sigFigures).2 hne
  refine ⟨_, hok, ?_⟩
  rw [HdrHistogram.total_count, hvals, List.length_flatMap]
  rfl

/-- Witness for C2 at a concrete two-slice series. -/
theorem aggregateSlices_total_count_witness :
    ∃ h, aggregateSlices [⟨0, 10, 1, 5, [1, 5]⟩, ⟨10, 20, 2, 9, [2, 9, 9]⟩] 3 = .ok h ∧
      h.total_count =
        (([⟨0, 10, 1, 5, [1, 5]⟩, ⟨10, 20, 2, 9, [2, 9, 9]⟩] : List Slice).map
          Slice.total_count).sum :=
  aggregateSlices_total_count [⟨0, 10, 1, 5, [1, 5]⟩, ⟨10, 20, 2, 9, [2, 9, 9]⟩] 3
    (by decide)

/-- C3: aggregation is order-independent — permuting the series yields a
histogram with the same range, precision and identical per-value counts. -/
theorem aggregateSlices_perm_invariant (s₁ s₂ : List Slice) (sigFigures : ℕ)
    (hperm : s₁.Perm s₂) (hne : s₁ ≠ []) :
    ∃ h₁ h₂, aggregateSlices s₁ sigFigures = .ok h₁ ∧
      aggregateSlices s₂ sigFigures = .ok h₂ ∧
      h₁.lowest_trackable_value = h₂.lowest_trackable_value ∧
      h₁.highest_trackable_value = h₂.highest_trackable_value ∧
      h₁.significant_figures = h₂.significant_figures ∧
      ∀ v : ℕ, h₁.values.count v = h₂.values.count v := by
  have hne₂ : s₂ ≠ [] := by
    intro hn
    subst hn
    exact hne hperm.eq_nil
  obtain ⟨m, hm₁⟩ := pyMax_ok (l := s₁.map (fun sl => sliceMaxValue sl true))
    (by simpa using hne)
  have hm₂ : pyMax (s₂.map (fun sl => sliceMaxValue sl true)) = .ok m := by
    rw [← pyMax_perm (hperm.map (fun sl => sliceMaxValue sl true))]
    exact hm₁
  refine ⟨⟨1, ⌊(1 : ℚ) + m⌋, sigFigures, s₁.flatMap Slice.values⟩,
    ⟨1, ⌊(1 : ℚ) + m⌋, sigFigures, s₂.flatMap Slice.values⟩, ?_, ?_, rfl, rfl, rfl, ?_⟩
  · unfold aggregateSlices slicesMaxValue
    rw [hm₁]
  · unfold aggregateSlices slicesMaxValue
    rw [hm₂]
  · intro v
    exact (hperm.flatMap_right Slice.values).count_eq v

/-- Witness for C3: swapping a concrete two-slice series. -/
theorem aggregateSlices_perm_invariant_witness :
    ∃ h₁ h₂,
      aggregateSlices [⟨0, 10, 1, 5, [1, 5]⟩, ⟨10, 20, 2, 9, [2, 9, 9]⟩] 3 = .ok h₁ ∧
      aggregateSlices [⟨10, 20, 2, 9, [2, 9, 9]⟩, ⟨0, 10, 1, 5, [1, 5]⟩] 3 = .ok h₂ ∧
      h₁.lowest_trackable_value = h₂.lowest_trackable_value ∧
      h₁.highest_trackable_value = h₂.highest_trackable_value ∧
      h₁.significant_figures = h₂.significant_figures ∧
      ∀ v : ℕ, h₁.values.count v = h₂.values.count v :=
  aggregateSlices_perm_invariant [⟨0, 10, 1, 5, [1, 5]⟩, ⟨10, 20, 2, 9, [2, 9, 9]⟩]
    [⟨10, 20, 2, 9, [2, 9, 9]⟩, ⟨0, 10, 1, 5, [1, 5]⟩] 3 (List.Perm.swap _ _ _)
    (by decide)

/-! ### Percentile-curve claim -/

/-- Sequential running totals starting from accumulator `t`: the list
`[t + y₀, t + y₀ + y₁, ...]`. -/
def runningSums (t : ℚ) : List ℚ → List ℚ
  | [] => []
  | y :: ys => (t + y) :: runningSums (t + y) ys

theorem foldl_percentileStep (ys : List ℚ) : ∀ (t : ℚ) (acc : List ℚ),
    ys.foldl percentileStep (t, acc) = (t + ys.sum, acc ++ runningSums t ys) := by
  induction ys with
  | nil =>
    intro t acc
    simp [runningSums]
  | cons y ys ih =>
    intro t acc
    rw [List.foldl_cons]
    show ys.foldl percentileStep (t + y, acc ++ [t + y]) = _
    rw [ih (t + y) (acc ++ [t + y])]
    rw [List.sum_cons, runningSums]
    rw [List.append_assoc]
    rw [← add_assoc]
    rfl

theorem runningSums_length (ys : List ℚ) : ∀ t : ℚ,
    (runningSums t ys).length = ys.length := by
  induction ys with
  | nil => intro t; rfl
  | cons y ys ih =>
    intro t
    rw [runningSums, List.length_cons, List.length_cons, ih (t + y)]

theorem runningSums_get (ys : List ℚ) : ∀ (t : ℚ) (i : ℕ)
    (hg : i < (runningSums t ys).length),
    (runningSums t ys).get ⟨i, hg⟩ = t + (ys.take (i + 1)).sum := by
  induction ys with
  | nil =>
    intro t i hg
    cases hg
  | cons y ys ih =>
    intro t i hg
    cases i with
    | zero => simp [runningSums]
    | succ j =>
      have hg' : j < (runningSums (t + y) ys).length := by
        simpa [runningSums] using hg
      show (runningSums (t + y) ys).get ⟨j, hg'⟩ = _
      rw [ih (t + y) j hg']
      rw [List.take_succ_cons, List.sum_cons]
      ring

/-- C4: the percentiles branch returns `(pxs, pys)` with `pys` exactly the
density curve's x-values and `pxs` the sequential prefix sums of the
y-values, each scaled by `xStep * 100`. -/
theorem percentileCurve_spec (bxs bys : List ℚ) (xStep : ℚ) :
    (percentileCurve bxs bys xStep).2 = bxs ∧
    (percentileCurve bxs bys xStep).1.length = bys.length ∧
    ∀ (i : ℕ) (hi : i < (percentileCurve bxs bys xStep).1.length),
      (percentileCurve bxs bys xStep).1.get ⟨i, hi⟩ =
        (bys.take (i + 1)).sum * xStep * 100 := by
  have hfold : (bys.foldl percentileStep ((0 : ℚ), ([] : List ℚ))).2 =
      runningSums 0 bys := by
    rw [foldl_percentileStep bys 0 []]
    rfl
  refine ⟨rfl, ?_, ?_⟩
  · show ((bys.foldl percentileStep ((0 : ℚ), ([] : List ℚ))).2.map
      (fun x => x * xStep * 100)).length = bys.length
    rw [hfold, List.length_map, runningSums_length bys 0]
  · intro i hi
    simp only [percentileCurve, List.get_eq_getElem] at hi ⊢
    simp only [hfold] at hi ⊢
    rw [List.getElem_map]
    have hg : i < (runningSums 0 bys).length := by
      simpa using hi
    have hval := runningSums_get bys 0 i hg
    simp only [List.get_eq_getElem] at hval
    rw [hval, zero_add]

/-- Witness for C4 at a concrete curve. -/
theorem percentileCurve_spec_witness :
    (percentileCurve [(4 : ℚ)] [(3 : ℚ)] 2).2 = [(4 : ℚ)] ∧
    (percentileCurve [(4 : ℚ)] [(3 : ℚ)] 2).1.length = [(3 : ℚ)].length ∧
    ∀ (i : ℕ) (hi : i < (percentileCurve [(4 : ℚ)] [(3 : ℚ)] 2).1.length),
      (percentileCurve [(4 : ℚ)] [(3 : ℚ)] 2).1.get ⟨i, hi⟩ =
        ([(3 : ℚ)].take (i + 1)).sum * 2 * 100 :=
  percentileCurve_spec [(4 : ℚ)] [(3 : ℚ)] 2

/-! ### Stability-padding claim -/

theorem le_foldl_maxByLenStep_init (x : List ℚ) (xs : List (List ℚ)) :
    x.length ≤ (xs.foldl maxByLenStep x).length := by
  induction xs generalizing x with
  | nil => exact le_refl _
  | cons y ys ih =>
    rw [List.foldl_cons]
    refine le_trans ?_ (ih (maxByLenStep x y))
    unfold maxByLenStep
    split
    · exact Nat.le_of_lt (by assumption)
    · exact le_refl _

theorem foldl_maxByLenStep_split (xs : List (List ℚ)) : ∀ x : List ℚ,
    ∃ l₁ l₂, x :: xs = l₁ ++ (xs.foldl maxByLenStep x) :: l₂ ∧
      (∀ y ∈ l₁, y.length < (xs.foldl maxByLenStep x).length) ∧
      (∀ y ∈ l₂, y.length ≤ (xs.foldl maxByLenStep x).length) := by
  induction xs with
  | nil =>
    intro x
    exact ⟨[], [], rfl, by simp, by simp⟩
  | cons y ys ih =>
    intro x
    rw [List.foldl_cons]
    by_cases hxy : x.length < y.length
    · rw [show maxByLenStep x y = y from if_pos hxy]
      obtain ⟨l₁, l₂, hdec, hlt, hle⟩ := ih y
      refine ⟨x :: l₁, l₂, ?_, ?_, hle⟩
      · rw [List.cons_append, ← hdec]
      · intro z hz
        rcases List.mem_cons.mp hz with rfl | hz
        · exact lt_of_lt_of_le hxy (le_foldl_maxByLenStep_init y ys)
        · exact hlt z hz
    · rw [show maxByLenStep x y = x from if_neg hxy]
      obtain ⟨l₁, l₂, hdec, hlt, hle⟩ := ih x
      cases l₁ with
      | nil =>
        obtain ⟨hm, hys⟩ : x = ys.foldl maxByLenStep x ∧ ys = l₂ := by
          simpa using hdec
        refine ⟨[], y :: ys, ?_, by simp, ?_⟩
        · rw [List.nil_append, ← hm]
        · intro z hz
          rcases List.mem_cons.mp hz with rfl | hz
          · rw [← hm]
            exact Nat.le_of_not_lt hxy
          · rw [hys] at hz
            exact hle z hz
      | cons a t =>
        obtain ⟨hax, hys⟩ : x = a ∧ ys = t ++ (ys.foldl maxByLenStep x) :: l₂ := by
          rw [List.cons_append] at hdec
          injection hdec with h1 h2
          exact ⟨h1, h2⟩
        refine ⟨x :: y :: t, l₂, ?_, ?_, hle⟩
        · rw [List.cons_append, List.cons_append, ← hys]
        · intro z hz
          have hxm : x.length < (ys.foldl maxByLenStep x).length := by
            refine lt_of_le_of_lt (le_of_eq ?_) (hlt a (List.mem_cons_self a t))
            rw [hax]
          rcases List.mem_cons.mp hz with rfl | hz
          · exact hxm
          · rcases List.mem_cons.mp hz with rfl | hz
            · exact Nat.lt_of_le_of_lt (Nat.le_of_not_lt hxy) hxm
            · exact hlt z (List.mem_cons_of_mem a hz)

theorem pyMaxByLen_spec {l : List (List ℚ)} {m : List ℚ}
    (h : pyMaxByLen l = some m) : m ∈ l ∧ ∀ y ∈ l, y.length ≤ m.length := by
  cases l with
  | nil => cases h
  | cons x xs =>
    have hm : m = xs.foldl maxByLenStep x := by
      simpa [pyMaxByLen] using h.symm
    subst hm
    obtain ⟨l₁, l₂, hdec, hlt, hle⟩ := foldl_maxByLenStep_split xs x
    constructor
    · rw [hdec]
      exact List.mem_append.mpr (Or.inr (List.mem_cons_self _ _))
    · intro y hy
      rw [hdec] at hy
      rcases List.mem_append.mp hy with hy | hy
      · exact Nat.le_of_lt (hlt y hy)
      · rcases List.mem_cons.mp hy with rfl | hy
        · exact le_refl _
        · exact hle y hy

theorem find?_eq_first {α : Type} (p : α → Bool) (l₁ : List α) (m : α)
    (l₂ : List α) (h₁ : ∀ y ∈ l₁, p y = false) (hm : p m = true) :
    (l₁ ++ m :: l₂).find? p = some m := by
  induction l₁ with
  | nil =>
    rw [List.nil_append]
    exact List.find?_cons_of_pos l₂ hm
  | cons a t ih =>
    rw [List.cons_append, List.find?_cons_of_neg _ (by
      rw [h₁ a (List.mem_cons_self a t)]
      exact Bool.false_ne_true)]
    exact ih (fun y hy => h₁ y (List.mem_cons_of_mem a hy))

theorem pyMaxByLen_eq_firstLongest (l : List (List ℚ)) (hne : l ≠ []) :
    pyMaxByLen l = firstLongest l := by
  cases l with
  | nil => exact absurd rfl hne
  | cons x xs =>
    obtain ⟨l₁, l₂, hdec, hlt, hle⟩ := foldl_maxByLenStep_split xs x
    show some (xs.foldl maxByLenStep x) = firstLongest (x :: xs)
    unfold firstLongest
    rw [hdec]
    rw [find?_eq_first _ l₁ _ l₂ ?_ ?_]
    · intro y hy
      have : ¬ ((l₁ ++ (xs.foldl maxByLenStep x) :: l₂).all
          (fun z => decide (z.length ≤ y.length)) = true) := by
        intro hall
        have hmy := List.all_eq_true.mp hall (xs.foldl maxByLenStep x)
          (List.mem_append.mpr (Or.inr (List.mem_cons_self _ _)))
        simp only [decide_eq_true_eq] at hmy
        exact absurd hmy (Nat.not_le.mpr (hlt y hy))
      exact Bool.eq_false_iff.mpr this
    · rw [List.all_eq_true]
      intro z hz
      simp only [decide_eq_true_eq]
      rcases List.mem_append.mp hz with hz | hz
      · exact Nat.le_of_lt (hlt z hz)
      · rcases List.mem_cons.mp hz with rfl | hz
        · exact le_refl _
        · exact hle z hz

/-- C5: the stability padding picks `fullXs` as the x-sequence of the first
longest per-slice curve, right-pads every y-sequence with exactly
`len(fullXs) - len(ys)` trailing zeros and replaces every x-sequence by
`fullXs`, so that every output curve has x-sequence `fullXs` and y-sequence
of length `len(fullXs)`. -/
theorem stabilityPad_spec (plots : List (List ℚ × List ℚ)) (hne : plots ≠ [])
    (hwf : ∀ p ∈ plots, (Prod.fst p).length = (Prod.snd p).length) :
    ∃ fullXs, firstLongest (plots.map Prod.fst) = some fullXs ∧
      stabilityPad plots = plots.map (fun p =>
        (fullXs, p.2 ++ List.replicate (fullXs.length - p.2.length) (0 : ℚ))) ∧
      (∀ p ∈ plots, p.2.length ≤ fullXs.length) ∧
      ∀ q ∈ stabilityPad plots, q.1 = fullXs ∧ q.2.length = fullXs.length := by
  have hmapne : plots.map Prod.fst ≠ [] := by
    simpa using hne
  obtain ⟨m, hm⟩ : ∃ m, pyMaxByLen (plots.map Prod.fst) = some m := by
    cases hl : plots.map Prod.fst with
    | nil => exact absurd hl hmapne
    | cons a t =>
      exact ⟨t.foldl maxByLenStep a, rfl⟩
  have hspec := pyMaxByLen_spec hm
  have hfl : firstLongest (plots.map Prod.fst) = some m := by
    rw [← pyMaxByLen_eq_firstLongest _ hmapne]
    exact hm
  have hpad : stabilityPad plots = plots.map (fun p =>
      (m, p.2 ++ List.replicate (m.length - p.2.length) (0 : ℚ))) := by
    unfold stabilityPad
    rw [hm]
  have hble : ∀ p ∈ plots, p.2.length ≤ m.length := by
    intro p hp
    rw [← hwf p hp]
    exact hspec.2 p.1 (List.mem_map_of_mem Prod.fst hp)
  refine ⟨m, hfl, hpad, hble, ?_⟩
  intro q hq
  rw [hpad] at hq
  obtain ⟨p, hp, rfl⟩ := List.mem_map.mp hq
  refine ⟨rfl, ?_⟩
  simp only [List.length_append, List.length_replicate]
  exact Nat.add_sub_cancel' (hble p hp)

/-- Witness for C5 at a concrete pair of curves of lengths 2 and 1. -/
theorem stabilityPad_spec_witness :
    ∃ fullXs,
      firstLongest (([([(1 : ℚ), 2], [(3 : ℚ), 4]), ([1], [5])] :
        List (List ℚ × List ℚ)).map Prod.fst) = some fullXs ∧
      stabilityPad [([(1 : ℚ), 2], [(3 : ℚ), 4]), ([1], [5])] =
        ([([(1 : ℚ), 2], [(3 : ℚ), 4]), ([1], [5])] :
          List (List ℚ × List ℚ)).map (fun p =>
          (fullXs, p.2 ++ List.replicate (fullXs.length - p.2.length) (0 : ℚ))) ∧
      (∀ p ∈ ([([(1 : ℚ), 2], [(3 : ℚ), 4]), ([1], [5])] :
        List (List ℚ × List ℚ)), p.2.length ≤ fullXs.length) ∧
      ∀ q ∈ stabilityPad [([(1 : ℚ), 2], [(3 : ℚ), 4]), ([1], [5])],
        q.1 = fullXs ∧ q.2.length = fullXs.length :=
  stabilityPad_spec [([(1 : ℚ), 2], [(3 : ℚ), 4]), ([1], [5])] (by decide)
    (by decide)

/-! ### Density-curve claim -/

theorem sum_map_add_nat {α : Type} (l : List α) (f g : α → ℕ) :
    (l.map (fun a => f a + g a)).sum = (l.map f).sum + (l.map g).sum := by
  induction l with
  | nil => rfl
  | cons a t ih =>
    simp only [List.map_cons, List.sum_cons, ih]
    omega

theorem sum_indicator_range_of_le (B i₀ : ℕ) (h : B ≤ i₀) :
    ((List.range B).map (fun i => if i = i₀ then (1 : ℕ) else 0)).sum = 0 := by
  induction B with
  | zero => rfl
  | succ B ih =>
    rw [List.range_succ, List.map_append, List.sum_append, ih (by omega)]
    simp only [List.map_cons, List.map_nil, List.sum_cons, List.sum_nil]
    rw [if_neg (by omega)]
    omega

theorem sum_indicator_range_of_lt (B i₀ : ℕ) (h : i₀ < B) :
    ((List.range B).map (fun i => if i = i₀ then (1 : ℕ) else 0)).sum = 1 := by
  induction B with
  | zero => omega
  | succ B ih =>
    rw [List.range_succ, List.map_append, List.sum_append]
    by_cases hi : i₀ = B
    · subst hi
      rw [sum_indicator_range_of_le i₀ i₀ (le_refl i₀)]
      simp
    · rw [ih (by omega)]
      simp only [List.map_cons, List.map_nil, List.sum_cons, List.sum_nil]
      rw [if_neg (fun hc => hi hc.symm)]
      omega

theorem mem_bucket_iff {w : ℚ} (hw : 0 < w) (v i : ℕ) :
    ((i : ℚ) * w ≤ (v : ℚ) ∧ (v : ℚ) < ((i : ℚ) + 1) * w) ↔
      (i : ℤ) = ⌊(v : ℚ) / w⌋ := by
  constructor
  · rintro ⟨h1, h2⟩
    have hle : (i : ℤ) ≤ ⌊(v : ℚ) / w⌋ := by
      rw [Int.le_floor, le_div_iff₀ hw]
      push_cast
      exact h1
    have hlt : ⌊(v : ℚ) / w⌋ < (i : ℤ) + 1 := by
      rw [Int.floor_lt, div_lt_iff₀ hw]
      push_cast
      exact h2
    omega
  · intro hif
    constructor
    · have h1 : (i : ℤ) ≤ ⌊(v : ℚ) / w⌋ := le_of_eq hif
      rw [Int.le_floor, le_div_iff₀ hw] at h1
      exact_mod_cast h1
    · have h2 : ⌊(v : ℚ) / w⌋ < (i : ℤ) + 1 := by omega
      rw [Int.floor_lt, div_lt_iff₀ hw] at h2
      push_cast at h2
      exact h2

theorem sum_countInBucket {w : ℚ} (hw : 0 < w) (values : List ℕ) (B : ℕ)
    (hB : ∀ v ∈ values, (v : ℚ) < (B : ℚ) * w) :
    ((List.range B).map (fun i => countInBucket values w i)).sum =
      values.length := by
  induction values with
  | nil =>
    simp [countInBucket]
  | cons v vs ih =>
    have hv : (v : ℚ) < (B : ℚ) * w := hB v (List.mem_cons_self v vs)
    have hvs : ∀ u ∈ vs, (u : ℚ) < (B : ℚ) * w :=
      fun u hu => hB u (List.mem_cons_of_mem v hu)
    have h0 : (0 : ℤ) ≤ ⌊(v : ℚ) / w⌋ :=
      Int.floor_nonneg.mpr (div_nonneg (by positivity) hw.le)
    have hiB : (⌊(v : ℚ) / w⌋).toNat < B := by
      have hfl : ⌊(v : ℚ) / w⌋ < (B : ℤ) := by
        rw [Int.floor_lt, div_lt_iff₀ hw]
        push_cast
        exact hv
      omega
    have hmap : ∀ i : ℕ, countInBucket (v :: vs) w i =
        countInBucket vs w i +
          (if i = (⌊(v : ℚ) / w⌋).toNat then 1 else 0) := by
      intro i
      simp only [countInBucket, List.countP_cons]
      congr 1
      by_cases hc : (i : ℚ) * w ≤ (v : ℚ) ∧ (v : ℚ) < ((i : ℚ) + 1) * w
      · rw [if_pos (decide_eq_true hc), if_pos ?_]
        have := (mem_bucket_iff hw v i).mp hc
        omega
      · have hne1 : ¬ (decide ((i : ℚ) * w ≤ (v : ℚ) ∧
            (v : ℚ) < ((i : ℚ) + 1) * w) = true) := by
          intro hd
          exact hc (of_decide_eq_true hd)
        have hne2 : ¬ (i = (⌊(v : ℚ) / w⌋).toNat) := by
          intro hi
          exact hc ((mem_bucket_iff hw v i).mpr (by omega))
        rw [if_neg hne1, if_neg hne2]
    have hrw : ((List.range B).map (fun i => countInBucket (v :: vs) w i)).sum =
        ((List.range B).map (fun i => countInBucket vs w i +
          (if i = (⌊(v : ℚ) / w⌋).toNat then 1 else 0))).sum := by
      congr 1
      exact List.map_congr_left (fun i _ => hmap i)
    rw [hrw, sum_map_add_nat, ih hvs, sum_indicator_range_of_lt B _ hiB,
      List.length_cons]

theorem values_lt_numBuckets_mul {w : ℚ} (hw : 0 < w) (values : List ℕ) :
    ∀ v ∈ values, (v : ℚ) < (numBuckets values w : ℚ) * w := by
  intro v hv
  have hvM : v ≤ histMaxValue values := le_foldl_max_of_mem 0 hv
  have h0 : (0 : ℤ) ≤ ⌊(histMaxValue values : ℚ) / w⌋ :=
    Int.floor_nonneg.mpr (div_nonneg (by positivity) hw.le)
  have hM : (histMaxValue values : ℚ) <
      ((⌊(histMaxValue values : ℚ) / w⌋ : ℚ) + 1) * w :=
    (div_lt_iff₀ hw).mp (Int.lt_floor_add_one _)
  have hcast : ((⌊(histMaxValue values : ℚ) / w⌋.toNat : ℕ) : ℚ) =
      ((⌊(histMaxValue values : ℚ) / w⌋ : ℤ) : ℚ) := by
    exact_mod_cast Int.toNat_of_nonneg h0
  calc (v : ℚ) ≤ (histMaxValue values : ℚ) := by exact_mod_cast hvM
    _ < ((⌊(histMaxValue values : ℚ) / w⌋ : ℚ) + 1) * w := hM
    _ = (numBuckets values w : ℚ) * w := by
        rw [numBuckets]
        push_cast
        rw [hcast]

theorem vfOf_pos (rawFlag : Bool) : (0 : ℚ) < vfOf rawFlag := by
  unfold vfOf VALUE_FACTOR
  split <;> norm_num

/-- C1 (amended): on a histogram with samples and a positive bucket width,
provided at least one linear-iteration bucket passes the percentile filter,
`normalizedDistribution` emits exactly one point per bucket whose cumulative
percentile does not exceed `max_percentile`, with x the bucket midpoint
divided by the scale factor (so `(i + 1/2) * x_incr` in display units) and
y the bucket count divided by `total_count * x_incr`; with
`max_percentile = 100` the emitted densities integrate to 1. -/
theorem normalizedDistribution_points (values : List ℕ)
    (x_incr max_percentile : ℚ) (rawFlag : Bool) (hn : 0 < values.length)
    (hx : 0 < x_incr)
    (hq : qualifyingBuckets values (x_incr * vfOf rawFlag) max_percentile ≠ []) :
    ∃ xs ys,
      normalizedDistribution values x_incr max_percentile rawFlag = .ok (xs, ys) ∧
      xs = (qualifyingBuckets values (x_incr * vfOf rawFlag) max_percentile).map
        (fun (i : ℕ) => ((i : ℚ) + 1 / 2) * x_incr) ∧
      ys = (qualifyingBuckets values (x_incr * vfOf rawFlag) max_percentile).map
        (fun i => (countInBucket values (x_incr * vfOf rawFlag) i : ℚ) /
          ((values.length : ℚ) * x_incr)) ∧
      (max_percentile = 100 → (ys.map (fun y => y * x_incr)).sum = 1) := by
  have hvf := vfOf_pos rawFlag
  have hw : 0 < x_incr * vfOf rawFlag := mul_pos hx hvf
  have hkept : (linearSteps values (x_incr * vfOf rawFlag)).filter
      (fun s => decide (s.percentile ≤ max_percentile)) =
      (qualifyingBuckets values (x_incr * vfOf rawFlag) max_percentile).map
        (fun (i : ℕ) =>
          ({ value_iterated_from := (i : ℚ) * (x_incr * vfOf rawFlag)
             value_iterated_to := ((i : ℚ) + 1) * (x_incr * vfOf rawFlag)
             count_added_in_this_iter_step :=
               countInBucket values (x_incr * vfOf rawFlag) i
             percentile :=
               100 * (cumCountThrough values (x_incr * vfOf rawFlag) i : ℚ) /
                 (values.length : ℚ) } : LinearIterStep)) := by
    simp only [linearSteps, qualifyingBuckets]
    rw [List.filter_map]
    rfl
  have hempty : ((linearSteps values (x_incr * vfOf rawFlag)).filter
      (fun s => decide (s.percentile ≤ max_percentile))).isEmpty = false := by
    rw [hkept]
    cases hql : qualifyingBuckets values (x_incr * vfOf rawFlag) max_percentile with
    | nil => exact absurd hql hq
    | cons a t => rfl
  have hmain : normalizedDistribution values x_incr max_percentile rawFlag =
      .ok ((qualifyingBuckets values (x_incr * vfOf rawFlag) max_percentile).map
            (fun (i : ℕ) => (1 / 2 * (((i : ℚ) * (x_incr * vfOf rawFlag)) +
              (((i : ℚ) + 1) * (x_incr * vfOf rawFlag)))) / vfOf rawFlag),
           (qualifyingBuckets values (x_incr * vfOf rawFlag) max_percentile).map
            (fun i => (countInBucket values (x_incr * vfOf rawFlag) i : ℚ) /
              ((values.length : ℚ) * x_incr))) := by
    unfold normalizedDistribution
    rw [if_pos hn, hempty]
    rw [if_neg Bool.false_ne_true]
    rw [hkept, List.map_map, List.map_map]
    rfl
  have hxs : (qualifyingBuckets values (x_incr * vfOf rawFlag) max_percentile).map
      (fun (i : ℕ) => (1 / 2 * (((i : ℚ) * (x_incr * vfOf rawFlag)) +
        (((i : ℚ) + 1) * (x_incr * vfOf rawFlag)))) / vfOf rawFlag) =
      (qualifyingBuckets values (x_incr * vfOf rawFlag) max_percentile).map
        (fun (i : ℕ) => ((i : ℚ) + 1 / 2) * x_incr) := by
    apply List.map_congr_left
    intro i _
    have hvfne : vfOf rawFlag ≠ 0 := ne_of_gt hvf
    field_simp
    ring
  rw [hxs] at hmain
  refine ⟨_, _, hmain, rfl, rfl, ?_⟩
  intro h100
  subst h100
  have hn' : (0 : ℚ) < (values.length : ℚ) := by exact_mod_cast hn
  have hqall : qualifyingBuckets values (x_incr * vfOf rawFlag) 100 =
      List.range (numBuckets values (x_incr * vfOf rawFlag)) := by
    unfold qualifyingBuckets
    apply List.filter_eq_self.mpr
    intro i _
    apply decide_eq_true
    have hc : (cumCountThrough values (x_incr * vfOf rawFlag) i : ℚ) ≤
        (values.length : ℚ) := by
      exact_mod_cast List.countP_le_length _
    rw [div_le_iff₀ hn']
    nlinarith
  rw [hqall, List.map_map]
  have hfun : ((fun y => y * x_incr) ∘
      (fun i : ℕ => (countInBucket values (x_incr * vfOf rawFlag) i : ℚ) /
        ((values.length : ℚ) * x_incr))) =
      (fun i : ℕ => (countInBucket values (x_incr * vfOf rawFlag) i : ℚ) *
        ((values.length : ℚ))⁻¹) := by
    funext i
    have hx0 : x_incr ≠ 0 := ne_of_gt hx
    have hn0 : (values.length : ℚ) ≠ 0 := ne_of_gt hn'
    show (countInBucket values (x_incr * vfOf rawFlag) i : ℚ) /
        ((values.length : ℚ) * x_incr) * x_incr = _
    field_simp
    ring
  rw [hfun]
  rw [List.sum_map_mul_right]
  have hcast : ((List.range (numBuckets values (x_incr * vfOf rawFlag))).map
      (fun i : ℕ => (countInBucket values (x_incr * vfOf rawFlag) i : ℚ))).sum =
      (((List.range (numBuckets values (x_incr * vfOf rawFlag))).map
        (fun i => countInBucket values (x_incr * vfOf rawFlag) i)).sum : ℚ) := by
    rw [Nat.cast_list_sum, List.map_map]
    rfl
  rw [hcast,
    sum_countInBucket hw values _ (values_lt_numBuckets_mul hw values)]
  exact mul_inv_cancel₀ (ne_of_gt hn')

/-- Counterexample for C1: at `values = [1]`, `x_incr = 10`,
`max_percentile = 0`, raw mode, the histogram has a sample and the width is
positive yet no bucket qualifies, and `normalizedDistribution` raises the
zip-unpack error instead of emitting the empty family of points. -/
theorem normalizedDistribution_points_cex :
    qualifyingBuckets [1] (10 * vfOf true) 0 = [] ∧
    normalizedDistribution [1] 10 0 true = .error .zipUnpack ∧
    normalizedDistribution [1] 10 0 true ≠
      .ok (([] : List ℚ), ([] : List ℚ)) := by
  refine ⟨?_, ?_, ?_⟩
  · norm_num [qualifyingBuckets, numBuckets, histMaxValue, cumCountThrough,
      vfOf, List.countP_cons, List.range_succ, List.filter]
  · norm_num [normalizedDistribution, linearSteps, numBuckets, histMaxValue,
      countInBucket, cumCountThrough, vfOf, List.countP_cons, List.range_succ,
      List.filter]
  · intro hc
    have h2 : normalizedDistribution [1] 10 0 true = .error .zipUnpack := by
      norm_num [normalizedDistribution, linearSteps, numBuckets, histMaxValue,
        countInBucket, cumCountThrough, vfOf, List.countP_cons, List.range_succ,
        List.filter]
    rw [h2] at hc
    cases hc

/-- Witness for C1 (amended) at the concrete histogram `[1, 5, 9]` with
bucket width 2, cutoff 100, raw mode. -/
theorem normalizedDistribution_points_witness :
    ∃ xs ys,
      normalizedDistribution [1, 5, 9] 2 100 true = .ok (xs, ys) ∧
      xs = (qualifyingBuckets [1, 5, 9] (2 * vfOf true) 100).map
        (fun (i : ℕ) => ((i : ℚ) + 1 / 2) * 2) ∧
      ys = (qualifyingBuckets [1, 5, 9] (2 * vfOf true) 100).map
        (fun i => (countInBucket [1, 5, 9] (2 * vfOf true) i : ℚ) /
          ((([1, 5, 9] : List ℕ).length : ℚ) * 2)) ∧
      ((100 : ℚ) = 100 → (ys.map (fun y => y * 2)).sum = 1) :=
  normalizedDistribution_points [1, 5, 9] 2 100 true (by decide) (by norm_num)
    (by
      norm_num [qualifyingBuckets, numBuckets, histMaxValue, cumCountThrough,
        vfOf, List.countP_cons, List.range_succ, List.filter]
      exact List.cons_ne_nil _ _)

end NbHdrPlotter
